import Mathlib

/-!
Shallow embedding of the blockchain taint-score engine
(src/src/primitives/score.rs, src/src/primitives/address.rs, src/src/cache.rs,
src/src/score_db.rs, src/src/blockchain.rs, src/src/constant.rs).

Conventions of the embedding:
* `U256` machine integers are modelled as `ℕ`; wrap-around of `+`/`-` at
  `2 ^ 256` (release-mode ruint semantics) is made explicit through `add_wrap`
  and `sub_wrap` where the claims depend on it.
* Panics (failed `assert!`, division by zero inside `div_ceil`, overflowing
  `U256::from` narrowing, failed `expect`) and chain-source (`?`) errors are
  modelled as `none` of an `Option` result: they all abort the current block
  before the write transaction commits.
* 20-byte addresses are modelled as `ℕ` (their 160-bit value); the `BTreeMap`
  block cache is a key-sorted association list; the three store tables are
  point lookup functions plus, for `address_history`, the list of recorded
  blocks in insertion (ascending) order.
* The chain source (WebSocket provider) is an oracle structure of partial
  functions; `none` is a transport failure or a missing object.
-/

/-- Size of the `U256` machine-integer domain. -/
def U256_SIZE : ℕ := 2 ^ 256

/-- Wrapping `U256` addition (ruint release semantics). -/
def add_wrap (a b : ℕ) : ℕ := (a + b) % U256_SIZE

/-- Wrapping `U256` subtraction (two's-complement, ruint release semantics). -/
def sub_wrap (a b : ℕ) : ℕ := (a + (U256_SIZE - b % U256_SIZE)) % U256_SIZE

/-- `Uint::div_ceil`: quotient plus one when the remainder is non-zero.
The Rust version panics on a zero divisor; every call site below guards the
zero case explicitly, mirroring where the panic would occur. -/
def div_ceil_u (a b : ℕ) : ℕ := if a % b = 0 then a / b else a / b + 1

/-- `Score` from src/src/primitives/score.rs: a pair of `U256` values. -/
structure Score where
  balance : ℕ
  dirty_amount : ℕ
deriving DecidableEq

/-- `Score::new`: asserts `dirty_amount <= balance`, panicking otherwise
(modelled as `none`). -/
def Score.new (balance dirty_amount : ℕ) : Option Score :=
  if dirty_amount ≤ balance then some ⟨balance, dirty_amount⟩ else none

/-- `Score::new_clean`: `Score::new(balance, 0)`; its assertion always holds. -/
def Score.new_clean (balance : ℕ) : Score := ⟨balance, 0⟩

/-- `Score::new_dirty`: `Score::new(balance, balance)`; its assertion always
holds. -/
def Score.new_dirty (balance : ℕ) : Score := ⟨balance, balance⟩

/-- `Score::with_same_uncleanliness_ceil`: the 512-bit product of the new
balance and the reference dirty amount (exact over `ℕ`, since both inputs are
below `2 ^ 256`), ceiling-divided by the reference balance (panics when it is
zero), narrowed back to `U256` (`U256::from` panics when the quotient does not
fit), then `Score::new`. -/
def Score.with_same_uncleanliness_ceil (balance : ℕ) (proportion : Score) :
    Option Score :=
  if proportion.balance = 0 then none
  else
    let dirty_amount := div_ceil_u (balance * proportion.dirty_amount) proportion.balance
    if dirty_amount < U256_SIZE then Score.new balance dirty_amount else none

/-- `Score::as_dirty`. -/
def Score.as_dirty (s : Score) : Score := ⟨s.balance, s.balance⟩

/-- `Score::is_dirty`. -/
def Score.is_dirty (s : Score) : Bool := s.dirty_amount != 0

/-- `Score` addition (componentwise `U256` addition). -/
def Score.add (a b : Score) : Score :=
  ⟨add_wrap a.balance b.balance, add_wrap a.dirty_amount b.dirty_amount⟩

/-- `Score` subtraction (componentwise `U256` subtraction). -/
def Score.sub (a b : Score) : Score :=
  ⟨sub_wrap a.balance b.balance, sub_wrap a.dirty_amount b.dirty_amount⟩

/-- TC pool addresses from src/src/constant.rs. -/
def TC_ETH_ADDRESS : List ℕ :=
  [0xA160cdAB225685dA1d56aa342Ad8841c3b53f291,
   0x910Cbd523D972eb0a6f4cAe4618aD62622b39DbF,
   0x47CE0C6eD5B0Ce3d3A51fdb1C52DC66a7c3c2936,
   0x12D66f87A04A9E220743712cE6d9bB1B5616B8Fc]

/-- `POS_BLOCK_NUMBER` from src/src/constant.rs. -/
def POS_BLOCK_NUMBER : ℕ := 15537394

/-- `parse_units("2", "ether")`: the static PoW block reward in wei. -/
def STATIC_BLOCK_REWARD : ℕ := 2000000000000000000

/-- The block cache's `data` field (a `BTreeMap<AddressKey, Score>`),
modelled as a key-sorted association list. -/
abbrev CacheData := List (ℕ × Score)

/-- `BTreeMap::insert`: overwrite the key's entry, keeping keys sorted. -/
def insert_data : CacheData → ℕ → Score → CacheData
  | [], a, s => [(a, s)]
  | (b, t) :: rest, a, s =>
    if a < b then (a, s) :: (b, t) :: rest
    else if a = b then (a, s) :: rest
    else (b, t) :: insert_data rest a s

/-- `BTreeMap::get` (the cache's `get_data`). -/
def get_data : CacheData → ℕ → Option Score
  | [], _ => none
  | (b, t) :: rest, a => if a = b then some t else get_data rest a

/-- The whole block cache of src/src/cache.rs: the score map plus the
self-destruct address sequence. -/
structure TState where
  cacheData : CacheData
  selfDestruct : List ℕ
deriving DecidableEq

/-- The three logical store tables of src/src/score_db.rs:
`AddressScoreTable` (current dirty scores), `BlockSnapshotTable`
(block → address → score) and `AddressHistoryTable` (address → recorded
blocks, ascending). -/
structure Store where
  current_dirty : ℕ → Option Score
  snapshots : ℕ → ℕ → Option Score
  address_history : ℕ → List ℕ

/-- One node of a Geth call-tracer call tree
(`CallFrame { typ, from, to, value, gas_used, error, calls }`);
`frm` models the `from` field (a Lean keyword). -/
inductive CallFrame where
  | mk : String → ℕ → Option ℕ → Option ℕ → ℕ → Option String → List CallFrame → CallFrame

def CallFrame.typ : CallFrame → String
  | .mk t _ _ _ _ _ _ => t

def CallFrame.frm : CallFrame → ℕ
  | .mk _ f _ _ _ _ _ => f

def CallFrame.toAddr : CallFrame → Option ℕ
  | .mk _ _ t _ _ _ _ => t

def CallFrame.value : CallFrame → Option ℕ
  | .mk _ _ _ v _ _ _ => v

def CallFrame.gasUsed : CallFrame → ℕ
  | .mk _ _ _ _ g _ _ => g

def CallFrame.error : CallFrame → Option String
  | .mk _ _ _ _ _ e _ => e

def CallFrame.calls : CallFrame → List CallFrame
  | .mk _ _ _ _ _ _ c => c

/-- `TraceResult`: per-transaction call-tracer outcome. -/
inductive TraceResult where
  | success : Option ℕ → CallFrame → TraceResult
  | error : TraceResult

/-- The chain source (the WebSocket JSON-RPC provider), as an oracle of
partial functions; `none` models a transport error or a missing object. -/
structure Chain where
  balance : ℕ → ℕ → Option ℕ
  codeLen : ℕ → ℕ → Option ℕ
  receipt : ℕ → Option (ℕ × ℕ)
  uncle : ℕ → ℕ → Option (Option ℕ × ℕ)
  trace : ℕ → Option (List TraceResult)

/-- One drained `(address, score)` pair of `ScoreDb::flush_cache`
(src/src/score_db.rs): the four-way decision on `current_dirty` presence and
dirtiness of the flushed score. -/
def flush_cache_entry (block_number : ℕ) (st : Store) (address : ℕ) (score : Score) :
    Store :=
  match st.current_dirty address with
  | some _ =>
    { current_dirty := fun x =>
        if x = address then (if score.is_dirty then some score else none)
        else st.current_dirty x
      snapshots := fun b x =>
        if b = block_number ∧ x = address then some score else st.snapshots b x
      address_history := fun x =>
        if x = address then st.address_history x ++ [block_number]
        else st.address_history x }
  | none =>
    if score.is_dirty then
      { current_dirty := fun x =>
          if x = address then some score else st.current_dirty x
        snapshots := fun b x =>
          if b = block_number ∧ x = address then some score else st.snapshots b x
        address_history := fun x =>
          if x = address then st.address_history x ++ [block_number]
          else st.address_history x }
    else st

/-- `ScoreDb::flush_cache`: fold the per-entry decision over the drained
cache (the `BTreeMap` iterates its keys in ascending order). -/
def flush_cache (st : Store) (block_number : ℕ) (drained : CacheData) : Store :=
  drained.foldl (fun acc p => flush_cache_entry block_number acc p.1 p.2) st

/-- `ScoreDb::get_score`: the cache first, then `AddressScoreTable`. -/
def get_score (st : Store) (cache : CacheData) (address : ℕ) : Option Score :=
  match get_data cache address with
  | some s => some s
  | none => st.current_dirty address

/-- `ScoreDb::update_sender_state`: compute the transfer score from the prior
score (cache/store, else the clean chain balance at block `B - 1`), assert
sender solvency, and cache `prior - transfer`. Returns the new cache and the
transfer score, `none` on panic or chain failure. -/
def update_sender_state (st : Store) (cache : CacheData) (ch : Chain)
    (block_number address transfer_value : ℕ) : Option (CacheData × Score) :=
  match get_score st cache address with
  | some score =>
    match Score.with_same_uncleanliness_ceil transfer_value score with
    | none => none
    | some transfer_score =>
      if transfer_score.balance ≤ score.balance then
        some (insert_data cache address (score.sub transfer_score), transfer_score)
      else none
  | none =>
    match ch.balance address (block_number - 1) with
    | none => none
    | some b =>
      let score := Score.new_clean b
      let transfer_score := Score.new_clean transfer_value
      if transfer_score.balance ≤ score.balance then
        some (insert_data cache address (score.sub transfer_score), transfer_score)
      else none

/-- `ScoreDb::update_recipient_state`: re-taint deposits into TC pools, load
the prior recipient score (same fallback chain), and cache `prior + transfer`. -/
def update_recipient_state (st : Store) (cache : CacheData) (ch : Chain)
    (block_number address : ℕ) (transfer_score0 : Score) : Option CacheData :=
  let transfer_score :=
    if TC_ETH_ADDRESS.contains address then transfer_score0.as_dirty else transfer_score0
  match get_score st cache address with
  | some score => some (insert_data cache address (score.add transfer_score))
  | none =>
    match ch.balance address (block_number - 1) with
    | none => none
    | some b => some (insert_data cache address ((Score.new_clean b).add transfer_score))

/-- `ScoreDb::record_transfer`: sender update (or clean coinbase score),
optional rebase to the recipient value (asserting `recipient <= sender`),
then the recipient update. -/
def record_transfer (st : Store) (cache : CacheData) (ch : Chain) (block_number : ℕ)
    (sender_address : Option ℕ) (recipient_address : ℕ)
    (sender_value : ℕ) (recipient_value : Option ℕ) : Option CacheData :=
  match (match sender_address with
         | some s => update_sender_state st cache ch block_number s sender_value
         | none => some (cache, Score.new_clean sender_value)) with
  | none => none
  | some (cache1, ts0) =>
    match (match recipient_value with
           | none => some ts0
           | some rv =>
             if rv ≤ sender_value then Score.with_same_uncleanliness_ceil rv ts0
             else none) with
    | none => none
    | some ts => update_recipient_state st cache1 ch block_number recipient_address ts

/-- The effective priority fee per gas of `Blockchain::record_transaction`
(src/src/blockchain.rs lines 136-154): absent fields default to 0; for
EIP-1559 transactions the raw tip is kept when `max_fee > tip + base_fee`,
else (and for legacy transactions) `gas_price - base_fee` is used. -/
def effective_priority_fee (base_fee gas_price max_fee max_prio : Option ℕ) : ℕ :=
  let bf := base_fee.getD 0
  let gp := gas_price.getD 0
  let mf := max_fee.getD 0
  match max_prio with
  | some tips => if add_wrap tips bf < mf then tips else sub_wrap gp bf
  | none => sub_wrap gp bf

/-- `ScoreDb::get_address_score_by_block_number` (src/src/score_db.rs lines
485-534). `slice::binary_search` on the (strictly sorted) per-address history
is modelled by its contract: a hit yields the index of the key, a miss yields
the insertion point, i.e. the number of strictly smaller elements. -/
def get_address_score_by_block_number (st : Store) (ch : Chain)
    (address block_number : ℕ) : Option Score :=
  let hist := st.address_history address
  let idx := (hist.filter (fun y => decide (y < block_number))).length
  let closest :=
    if block_number ∈ hist then hist.getD idx 0
    else if idx = 0 then block_number
    else hist.getD (idx - 1) 0
  match st.snapshots closest address with
  | some s =>
    if s.balance ≠ 0 then some s
    else (ch.balance address block_number).map Score.new_clean
  | none => (ch.balance address block_number).map Score.new_clean

/-- The cursor loop of `ScoreDb::export_tainted_addresses_until_block_number`:
walk the snapshot entries (primary key ascending), stop at the first key above
the bound, and collect the scores into a `BTreeMap` keyed by address. -/
def export_tainted_loop (block_number : ℕ) :
    List (ℕ × ℕ × Score) → List (ℕ × Score) → List (ℕ × Score)
  | [], m => m
  | (k, a, s) :: rest, m =>
    if block_number < k then m
    else export_tainted_loop block_number rest (insert_data m a s)

/-- `ScoreDb::export_tainted_addresses_until_block_number` (src/src/score_db.rs
lines 401-428) over the snapshot table's iteration sequence `entries`
(primary key ascending, as the dup cursor yields it). The first component is
the function's Rust return value (the full retained map); the second is the
sequence of CSV rows it writes (the dirty retained entries, in map order). -/
def export_tainted_addresses_until_block_number
    (entries : List (ℕ × ℕ × Score)) (block_number : ℕ) :
    List (ℕ × Score) × List (ℕ × Score) :=
  let m := export_tainted_loop block_number entries []
  (m, m.filter (fun p => p.2.is_dirty))

/-- The self-destruct half of `Blockchain::process_frame`: a SELFDESTRUCT
frame whose `from` code at the block is empty (a failed code fetch aborts) is
appended to the self-destruct set. -/
def process_frame_selfdestruct_step (ch : Chain) (block_number : ℕ)
    (frame : CallFrame) (ts : TState) : Option TState :=
  if frame.typ = "SELFDESTRUCT" then
    match ch.codeLen frame.frm block_number with
    | none => none
    | some len =>
      some (if len = 0 then
              { ts with selfDestruct := ts.selfDestruct ++ [frame.frm] }
            else ts)
  else some ts

/-- The value-transfer half of `process_frame`: a non-zero `value` with a
present `to` is recorded as a transfer (a missing `to` is a fatal `expect`). -/
def process_frame_value_step (st : Store) (ch : Chain) (block_number : ℕ)
    (frame : CallFrame) (ts1 : TState) : Option TState :=
  if frame.value.getD 0 ≠ 0 then
    match frame.toAddr with
    | none => none
    | some toA =>
      match record_transfer st ts1.cacheData ch block_number
          (some frame.frm) toA (frame.value.getD 0) none with
      | none => none
      | some cache1 => some { ts1 with cacheData := cache1 }
  else some ts1

/-- `Blockchain::process_frame` (src/src/blockchain.rs lines 250-301):
delegate/static frames are skipped entirely; otherwise the SELFDESTRUCT step
runs first, then the value-transfer step. -/
def process_frame (st : Store) (ch : Chain) (block_number : ℕ)
    (frame : CallFrame) (ts : TState) : Option TState :=
  if frame.typ = "DELEGATECALL" ∨ frame.typ = "CALLCODE" ∨ frame.typ = "STATICCALL" then
    some ts
  else
    match process_frame_selfdestruct_step ch block_number frame ts with
    | none => none
    | some ts1 => process_frame_value_step st ch block_number frame ts1

/-- The worklist of `Blockchain::depth_first_traversal`: process the frames of
a sibling list in order, pre-order descending into children, skipping any
errored frame together with its whole subtree. -/
def dfs_list (st : Store) (ch : Chain) (block_number : ℕ) :
    List CallFrame → TState → Option TState
  | [], ts => some ts
  | CallFrame.mk t f toA v g e cs :: rest, ts =>
    if e.isSome then dfs_list st ch block_number rest ts
    else
      match process_frame st ch block_number (CallFrame.mk t f toA v g e cs) ts with
      | none => none
      | some ts1 =>
        match dfs_list st ch block_number cs ts1 with
        | none => none
        | some ts2 => dfs_list st ch block_number rest ts2

/-- `Blockchain::depth_first_traversal` (src/src/blockchain.rs lines 213-247):
skip an errored root entirely, else process it and traverse its children. -/
def depth_first_traversal (st : Store) (ch : Chain) (block_number : ℕ)
    (root : CallFrame) (ts : TState) : Option TState :=
  if root.error.isSome then some ts
  else
    match process_frame st ch block_number root ts with
    | none => none
    | some ts1 => dfs_list st ch block_number root.calls ts1

/-- The self-destruct contribution of one surviving frame: its `from` address
exactly when it is a SELFDESTRUCT frame whose code at the block is empty. -/
def self_destruct_mark (ch : Chain) (block_number : ℕ) (frame : CallFrame) : List ℕ :=
  if frame.typ = "SELFDESTRUCT" ∧ ch.codeLen frame.frm block_number = some 0 then
    [frame.frm]
  else []

/-- The addresses the traversal of a sibling list appends to the self-destruct
set: marks of surviving (error-free, with all ancestors error-free) frames in
pre-order, skipping errored subtrees. -/
def collect_sd_list (ch : Chain) (block_number : ℕ) : List CallFrame → List ℕ
  | [] => []
  | CallFrame.mk t f toA v g e cs :: rest =>
    (if e.isSome then []
     else self_destruct_mark ch block_number (CallFrame.mk t f toA v g e cs)
          ++ collect_sd_list ch block_number cs)
    ++ collect_sd_list ch block_number rest

/-- The addresses a whole call tree appends to the self-destruct set. -/
def collect_sd_root (ch : Chain) (block_number : ℕ) (root : CallFrame) : List ℕ :=
  if root.error.isSome then []
  else self_destruct_mark ch block_number root
       ++ collect_sd_list ch block_number root.calls

/-- The end-of-transaction drain of src/src/blockchain.rs lines 204-207:
every drained self-destructed address is forcibly set to `(0, 0)` in the
cache, and the self-destruct set is left empty. -/
def drain_self_destruct (ts : TState) : TState :=
  { cacheData := ts.selfDestruct.foldl (fun m a => insert_data m a ⟨0, 0⟩) ts.cacheData
    selfDestruct := [] }

/-- One transaction of a block (the fields `record_transaction` reads). -/
structure Transaction where
  gas_price : Option ℕ
  max_fee_per_gas : Option ℕ
  max_priority_fee_per_gas : Option ℕ
  has_blobs : Bool

/-- One beacon withdrawal: recipient address and amount in gwei. -/
structure Withdrawal where
  address : ℕ
  amount : ℕ

/-- The block header and body fields the pipeline reads. `transactions` is
`none` when the block does not carry full transactions
(`as_transactions` would `expect`-panic). -/
structure Block where
  number : Option ℕ
  miner : ℕ
  base_fee_per_gas : Option ℕ
  transactions : Option (List Transaction)
  uncles_len : ℕ
  withdrawals : Option (List Withdrawal)

/-- `Blockchain::record_transaction` (src/src/blockchain.rs lines 125-210):
compute the effective tip, then on a successful trace record the fee transfer
(total fee plus blob fee from the sender, tip portion to the miner) and
traverse the call tree; an errored trace only logs. In all cases the
self-destruct set is drained at the end. -/
def record_transaction (st : Store) (ch : Chain) (block_number block_miner : ℕ)
    (base_fee : Option ℕ) (tx : Transaction) (trace : TraceResult)
    (ts : TState) : Option TState :=
  let tip := effective_priority_fee base_fee tx.gas_price tx.max_fee_per_gas
    tx.max_priority_fee_per_gas
  let afterTrace : Option TState :=
    match trace with
    | .success tx_hash frame =>
      match tx_hash with
      | none => none
      | some h =>
        let fee_from_sender := frame.gasUsed * tx.gas_price.getD 0
        let fee_to_miner := frame.gasUsed * tip
        match (if tx.has_blobs then
                 match ch.receipt h with
                 | none => none
                 | some (blob_gas_used, blob_gas_price) =>
                   some (blob_gas_used * blob_gas_price)
               else some 0) with
        | none => none
        | some blob_fee =>
          match record_transfer st ts.cacheData ch block_number (some frame.frm)
              block_miner (fee_from_sender + blob_fee) (some fee_to_miner) with
          | none => none
          | some cache1 =>
            depth_first_traversal st ch block_number frame { ts with cacheData := cache1 }
    | .error => some ts
  afterTrace.map drain_self_destruct

/-- The per-transaction loop of `Blockchain::record_block`:
`transactions.iter().zip(traces.iter())` in block order. -/
def record_transactions (st : Store) (ch : Chain) (block_number block_miner : ℕ)
    (base_fee : Option ℕ) :
    List (Transaction × TraceResult) → TState → Option TState
  | [], ts => some ts
  | (tx, trace) :: rest, ts =>
    match record_transaction st ch block_number block_miner base_fee tx trace ts with
    | none => none
    | some ts1 => record_transactions st ch block_number block_miner base_fee rest ts1

/-- One uncle of the PoW reward loop: fetch the uncle (a failed fetch aborts),
and if it carries a number, credit `(uncle_number + 8 - B) * R / 8` to its
miner as a coinbase transfer (the `u64` subtraction is truncated). -/
def record_uncle_step (st : Store) (ch : Chain) (block_number : ℕ)
    (cache : CacheData) (idx : ℕ) : Option CacheData :=
  match ch.uncle block_number idx with
  | none => none
  | some (uncle_number?, uncle_miner) =>
    match uncle_number? with
    | none => some cache
    | some un =>
      let uncle_reward := (un + 8 - block_number) * STATIC_BLOCK_REWARD / 8
      record_transfer st cache ch block_number none uncle_miner uncle_reward none

/-- The uncle loop `for idx in 0..uncle_count`. -/
def record_uncles (st : Store) (ch : Chain) (block_number : ℕ) :
    List ℕ → CacheData → Option CacheData
  | [], cache => some cache
  | idx :: rest, cache =>
    match record_uncle_step st ch block_number cache idx with
    | none => none
    | some cache1 => record_uncles st ch block_number rest cache1

/-- The withdrawal loop of the PoS branch: each amount is converted from gwei
to wei and credited as a coinbase transfer. -/
def record_withdrawals (st : Store) (ch : Chain) (block_number : ℕ) :
    List Withdrawal → CacheData → Option CacheData
  | [], cache => some cache
  | w :: rest, cache =>
    match record_transfer st cache ch block_number none w.address
        (w.amount * 1000000000) none with
    | none => none
    | some cache1 => record_withdrawals st ch block_number rest cache1

/-- `Blockchain::record_reward` (src/src/blockchain.rs lines 304-397). -/
def record_reward (st : Store) (ch : Chain) (block_number block_miner : ℕ)
    (uncles_len : ℕ) (withdrawals : Option (List Withdrawal))
    (cache : CacheData) : Option CacheData :=
  if block_number < POS_BLOCK_NUMBER then
    let uncle_inclusion_reward := STATIC_BLOCK_REWARD / 32 * uncles_len
    match record_transfer st cache ch block_number none block_miner
        (STATIC_BLOCK_REWARD + uncle_inclusion_reward) none with
    | none => none
    | some cache1 => record_uncles st ch block_number (List.range uncles_len) cache1
  else
    match withdrawals with
    | none => some cache
    | some ws => record_withdrawals st ch block_number ws cache

/-- `Blockchain::record_block` (src/src/blockchain.rs lines 78-122): open a
write transaction, process every transaction with its trace, apply rewards,
flush the drained cache, and only then commit. Any `none` models a failure
path on which the write transaction is dropped; `some st'` is the committed
store. The cache is empty at the block boundary. -/
def record_block (st : Store) (ch : Chain) (block : Block) : Option Store :=
  match block.number with
  | none => none
  | some block_number =>
    match block.transactions with
    | none => none
    | some txs =>
      match ch.trace block_number with
      | none => none
      | some traces =>
        match record_transactions st ch block_number block.miner
            block.base_fee_per_gas (txs.zip traces) ⟨[], []⟩ with
        | none => none
        | some ts1 =>
          match record_reward st ch block_number block.miner block.uncles_len
              block.withdrawals ts1.cacheData with
          | none => none
          | some cache2 => some (flush_cache st block_number cache2)

/-- The store visible after a run of `record_block`: the committed store when
the run reached `txn.commit()`, the unchanged pre-block store when the write
transaction was dropped on a failure path. -/
def record_block_result (st : Store) (ch : Chain) (block : Block) : Store :=
  (record_block st ch block).getD st

/-- The P1 taint bound together with `U256` representability of a score. -/
def ScoreOk (s : Score) : Prop := s.dirty_amount ≤ s.balance ∧ s.balance < U256_SIZE

/-- Every score held in the block cache satisfies the taint bound. -/
def CacheOk (cache : CacheData) : Prop := ∀ a s, get_data cache a = some s → ScoreOk s

/-- Every score held in `AddressScoreTable` satisfies the taint bound. -/
def StoreOk (st : Store) : Prop := ∀ a s, st.current_dirty a = some s → ScoreOk s

/-- Chain balances are `U256` values. -/
def ChainOk (ch : Chain) : Prop := ∀ a b n, ch.balance a b = some n → n < U256_SIZE

/-- A store with all three tables empty (the state right after `clear`). -/
def empty_store : Store := ⟨fun _ => none, fun _ _ => none, fun _ => []⟩

/-- A store whose `current_dirty` holds one dirty address. -/
def dirty_store : Store :=
  ⟨fun a => if a = 1 then some ⟨5, 3⟩ else none, fun _ _ => none, fun _ => []⟩

/-- A store with a recorded history for address 3 at blocks 4 and 9. -/
def history_store : Store :=
  ⟨fun _ => none,
   fun b x =>
     if b = 4 ∧ x = 3 then some ⟨7, 2⟩
     else if b = 9 ∧ x = 3 then some ⟨8, 1⟩
     else none,
   fun x => if x = 3 then [4, 9] else []⟩

/-- A chain source that answers every query (balances 0, empty code). -/
def test_chain : Chain :=
  ⟨fun _ _ => some 0, fun _ _ => some 0, fun _ => some (0, 0),
   fun _ _ => some (some 0, 0), fun _ => some []⟩

/-- A leaf SELFDESTRUCT frame from address 9. -/
def sd_frame : CallFrame := .mk "SELFDESTRUCT" 9 none none 0 none []

/-- A value-less root CALL frame with one SELFDESTRUCT child. -/
def root_frame : CallFrame := .mk "CALL" 1 (some 2) none 0 none [sd_frame]

/-- A block without a number: `record_block` hits the `expect` immediately. -/
def bad_block : Block := ⟨none, 0, none, none, 0, none⟩

/-! ### Helper lemmas: machine arithmetic -/

theorem add_wrap_eq (a b : ℕ) (h : a + b < U256_SIZE) : add_wrap a b = a + b := by
  simpa [add_wrap] using Nat.mod_eq_of_lt h

theorem sub_wrap_eq (a b : ℕ) (hba : b ≤ a) (ha : a < U256_SIZE) :
    sub_wrap a b = a - b := by
  have hb : b < U256_SIZE := lt_of_le_of_lt hba ha
  have hS : 0 < U256_SIZE := by simp [U256_SIZE]
  have h1 : b % U256_SIZE = b := Nat.mod_eq_of_lt hb
  have h2 : a + (U256_SIZE - b) = (a - b) + U256_SIZE := by omega
  rw [sub_wrap, h1, h2, Nat.add_mod_right, Nat.mod_eq_of_lt (by omega)]

theorem div_le_div_ceil_u (a b : ℕ) : a / b ≤ div_ceil_u a b := by
  unfold div_ceil_u
  split <;> omega

theorem le_mul_div_ceil_u (a b : ℕ) (hb : 0 < b) : a ≤ b * div_ceil_u a b := by
  have h1 : b * (a / b) + a % b = a := Nat.div_add_mod a b
  have h2 : a % b < b := Nat.mod_lt _ hb
  unfold div_ceil_u
  split
  · omega
  · have : b * (a / b + 1) = b * (a / b) + b := by ring
    omega

theorem div_ceil_u_le (a b c : ℕ) (hb : 0 < b) (h : a ≤ b * c) :
    div_ceil_u a b ≤ c := by
  have h1 : b * (a / b) + a % b = a := Nat.div_add_mod a b
  unfold div_ceil_u
  split
  · exact Nat.le_of_mul_le_mul_left (by omega) hb
  · have h3 : b * (a / b) < b * c := by omega
    have : a / b < c := Nat.lt_of_mul_lt_mul_left h3
    omega

/-- The split-and-subtract inequality behind the taint bound: with
`dirty ≤ balance` of the reference and a transfer value at most the reference
balance, `prior.dirty + value ≤ prior.balance + ceil(value * dirty / balance)`,
so the post-subtraction score still satisfies `dirty ≤ balance`. -/
theorem split_sub_keeps_bound (pb pd v : ℕ) (hb : 0 < pb) (hpd : pd ≤ pb)
    (hv : v ≤ pb) : pd + v ≤ pb + div_ceil_u (v * pd) pb := by
  have h1 : v * pd ≤ pb * div_ceil_u (v * pd) pb := le_mul_div_ceil_u _ _ hb
  have h2 : pb * (pd + v) ≤ pb * (pb + div_ceil_u (v * pd) pb) := by
    have h3 : pb * pd + pb * v ≤ pb * pb + v * pd := by nlinarith
    nlinarith
  exact Nat.le_of_mul_le_mul_left h2 hb

/-- Exact description of a successful `with_same_uncleanliness_ceil`:
the balance is the requested value, the dirty amount is the exact ceiling
ratio, and the ceiling is at most the requested value (so narrowing fits). -/
theorem with_same_uncleanliness_ceil_eq (v : ℕ) (ref : Score)
    (hv : v < U256_SIZE) (hb : 0 < ref.balance)
    (hd : ref.dirty_amount ≤ ref.balance) :
    Score.with_same_uncleanliness_ceil v ref
      = some ⟨v, div_ceil_u (v * ref.dirty_amount) ref.balance⟩
    ∧ div_ceil_u (v * ref.dirty_amount) ref.balance ≤ v := by
  have hle : div_ceil_u (v * ref.dirty_amount) ref.balance ≤ v := by
    apply div_ceil_u_le _ _ _ hb
    calc v * ref.dirty_amount ≤ v * ref.balance :=
          Nat.mul_le_mul_left v hd
      _ = ref.balance * v := Nat.mul_comm _ _
  refine ⟨?_, hle⟩
  rw [Score.with_same_uncleanliness_ceil, if_neg (by omega)]
  have hlt : div_ceil_u (v * ref.dirty_amount) ref.balance < U256_SIZE :=
    lt_of_le_of_lt hle hv
  rw [if_pos hlt, Score.new, if_pos hle]

/-! ### Helper lemmas: the cache association list -/

theorem get_insert_data (m : CacheData) (b : ℕ) (s : Score) (a : ℕ) :
    get_data (insert_data m b s) a = if a = b then some s else get_data m a := by
  induction m with
  | nil => simp [insert_data, get_data]
  | cons p rest ih =>
    obtain ⟨c, t⟩ := p
    rw [insert_data]
    rcases lt_trichotomy b c with h | h | h
    · rw [if_pos h]
      by_cases hab : a = b
      · simp [get_data, hab]
      · by_cases hac : a = c <;> simp [get_data, hab, hac]
    · rw [if_neg (by omega), if_pos h]
      subst h
      by_cases hab : a = b <;> simp [get_data, hab]
    · rw [if_neg (by omega), if_neg (by omega)]
      by_cases hac : a = c
      · have hab : ¬ a = b := by omega
        have hcb : ¬ c = b := by omega
        simp [get_data, hac, hab, hcb]
      · simp [get_data, hac, ih]

theorem get_foldl_insert_const (l : List ℕ) (m : CacheData) (s : Score) (a : ℕ) :
    get_data (l.foldl (fun acc x => insert_data acc x s) m) a
      = if a ∈ l then some s else get_data m a := by
  induction l generalizing m with
  | nil => simp
  | cons x rest ih =>
    rw [List.foldl_cons, ih]
    by_cases hr : a ∈ rest
    · simp [hr]
    · by_cases hax : a = x <;> simp [hr, hax, get_insert_data]

theorem get_foldl_insert_pairs (l : List (ℕ × Score)) (m : CacheData) (a : ℕ) :
    get_data (l.foldl (fun acc e => insert_data acc e.1 e.2) m) a
      = match (l.filter (fun e => decide (e.1 = a))).getLast? with
        | some e => some e.2
        | none => get_data m a := by
  induction l generalizing m with
  | nil => simp
  | cons e rest ih =>
    rw [List.foldl_cons, ih]
    by_cases he : e.1 = a
    · rw [List.filter_cons_of_pos (by simpa using he)]
      cases hrest : (rest.filter (fun e => decide (e.1 = a))).getLast? with
      | some e2 => simp [List.getLast?_cons, hrest]
      | none =>
        simp only [List.getLast?_cons, hrest]
        simp [get_insert_data, he]
    · rw [List.filter_cons_of_neg (by simpa using he)]
      cases hrest : (rest.filter (fun e => decide (e.1 = a))).getLast? with
      | some e2 => simp [hrest]
      | none =>
        have hne : ¬ a = e.1 := fun h => he h.symm
        simp [hrest, get_insert_data, hne]

/-! ### Helper lemmas: strictly sorted histories (binary-search behaviour) -/

theorem sorted_getD_of_mem (l : List ℕ) (hs : l.Pairwise (· < ·)) (x : ℕ)
    (hx : x ∈ l) :
    l.getD ((l.filter (fun y => decide (y < x))).length) 0 = x := by
  induction l with
  | nil => cases hx
  | cons c t ih =>
    have hc : ∀ b ∈ t, c < b := (List.pairwise_cons.mp hs).1
    have ht : t.Pairwise (· < ·) := (List.pairwise_cons.mp hs).2
    rcases List.mem_cons.mp hx with hxc | hxt
    · subst hxc
      have hfilter : t.filter (fun y => decide (y < x)) = [] := by
        apply List.filter_eq_nil_iff.mpr
        intro b hb
        have := hc b hb
        simp only [decide_eq_true_eq]
        omega
      rw [List.filter_cons_of_neg (by simp), hfilter]
      simp
    · have hcx : c < x := hc x hxt
      rw [List.filter_cons_of_pos (by simpa using hcx)]
      simpa using ih ht hxt

theorem sorted_getD_pred (l : List ℕ) (hs : l.Pairwise (· < ·)) (x : ℕ)
    (hpos : 0 < (l.filter (fun y => decide (y < x))).length) :
    l.getD ((l.filter (fun y => decide (y < x))).length - 1) 0 ∈ l
    ∧ l.getD ((l.filter (fun y => decide (y < x))).length - 1) 0 < x
    ∧ ∀ b ∈ l, b < x →
        b ≤ l.getD ((l.filter (fun y => decide (y < x))).length - 1) 0 := by
  induction l with
  | nil => simp at hpos
  | cons c t ih =>
    have hc : ∀ b ∈ t, c < b := (List.pairwise_cons.mp hs).1
    have ht : t.Pairwise (· < ·) := (List.pairwise_cons.mp hs).2
    by_cases hcx : c < x
    · rw [List.filter_cons_of_pos (by simpa using hcx)] at hpos ⊢
      by_cases hzero : (t.filter (fun y => decide (y < x))).length = 0
      · have hfil : t.filter (fun y => decide (y < x)) = [] :=
          List.eq_nil_of_length_eq_zero hzero
        simp only [List.length_cons, hzero, Nat.add_sub_cancel, List.getD_cons_zero]
        refine ⟨List.mem_cons_self _ _, hcx, ?_⟩
        intro b hb hbx
        rcases List.mem_cons.mp hb with hbc | hbt
        · omega
        · exfalso
          have : b ∈ t.filter (fun y => decide (y < x)) := by
            simp [List.mem_filter, hbt, hbx]
          rw [hfil] at this
          cases this
      · have hpos' : 0 < (t.filter (fun y => decide (y < x))).length := by omega
        obtain ⟨hmem, hlt, hmax⟩ := ih ht hpos'
        have hidx : (t.filter (fun y => decide (y < x))).length + 1 - 1
            = ((t.filter (fun y => decide (y < x))).length - 1) + 1 := by omega
        rw [List.length_cons, hidx, List.getD_cons_succ]
        refine ⟨List.mem_cons_of_mem _ hmem, hlt, ?_⟩
        intro b hb hbx
        rcases List.mem_cons.mp hb with hbc | hbt
        · subst hbc
          exact le_of_lt (hc _ hmem)
        · exact hmax b hbt hbx
    · exfalso
      have hfilc : (c :: t).filter (fun y => decide (y < x)) = t.filter (fun y => decide (y < x)) :=
        List.filter_cons_of_neg (by simpa using hcx)
      have hfil : t.filter (fun y => decide (y < x)) = [] := by
        apply List.filter_eq_nil_iff.mpr
        intro b hb
        have := hc b hb
        simp only [decide_eq_true_eq]
        omega
      rw [hfilc, hfil] at hpos
      simp at hpos

/-! ### Helper lemmas: the tainted-addresses export loop -/

theorem export_tainted_loop_eq_foldl (block_number : ℕ)
    (entries : List (ℕ × ℕ × Score)) (m : CacheData) :
    export_tainted_loop block_number entries m
      = (entries.takeWhile (fun e => decide (e.1 ≤ block_number))).foldl
          (fun acc e => insert_data acc e.2.1 e.2.2) m := by
  induction entries generalizing m with
  | nil => simp [export_tainted_loop]
  | cons e rest ih =>
    obtain ⟨k, a, s⟩ := e
    rw [export_tainted_loop]
    by_cases hk : block_number < k
    · rw [if_pos hk, List.takeWhile_cons]
      simp only [decide_eq_true_eq]
      rw [if_neg (by omega)]
      rfl
    · rw [if_neg hk, List.takeWhile_cons]
      simp only [decide_eq_true_eq]
      rw [if_pos (by omega)]
      exact ih _

/-! ### Helper lemmas: the self-destruct traversal -/

theorem selfdestruct_step_spec (ch : Chain) (block_number : ℕ)
    (frame : CallFrame) (ts ts1 : TState)
    (h : process_frame_selfdestruct_step ch block_number frame ts = some ts1) :
    ts1 = { ts with
      selfDestruct := ts.selfDestruct ++ self_destruct_mark ch block_number frame } := by
  unfold process_frame_selfdestruct_step at h
  unfold self_destruct_mark
  by_cases hsd : frame.typ = "SELFDESTRUCT"
  · rw [if_pos hsd] at h
    split at h
    · cases h
    · rename_i len hcode
      by_cases hlen : len = 0
      · subst hlen
        rw [if_pos rfl] at h
        cases h
        rw [if_pos ⟨hsd, hcode⟩]
      · rw [if_neg hlen] at h
        cases h
        have hmark : ¬ (frame.typ = "SELFDESTRUCT"
            ∧ ch.codeLen frame.frm block_number = some 0) := by
          rintro ⟨-, hcode0⟩
          rw [hcode] at hcode0
          cases hcode0
          exact hlen rfl
        rw [if_neg hmark]
        simp
  · rw [if_neg hsd] at h
    cases h
    have hmark : ¬ (frame.typ = "SELFDESTRUCT"
        ∧ ch.codeLen frame.frm block_number = some 0) := fun hx => hsd hx.1
    rw [if_neg hmark]
    simp

theorem value_step_selfDestruct (st : Store) (ch : Chain) (block_number : ℕ)
    (frame : CallFrame) (ts1 ts2 : TState)
    (h : process_frame_value_step st ch block_number frame ts1 = some ts2) :
    ts2.selfDestruct = ts1.selfDestruct := by
  unfold process_frame_value_step at h
  by_cases hval : frame.value.getD 0 ≠ 0
  · rw [if_pos hval] at h
    split at h
    · cases h
    · split at h
      · cases h
      · cases h
        rfl
  · rw [if_neg hval] at h
    cases h
    rfl

theorem process_frame_selfDestruct (st : Store) (ch : Chain) (block_number : ℕ)
    (frame : CallFrame) (ts ts1 : TState)
    (h : process_frame st ch block_number frame ts = some ts1) :
    ts1.selfDestruct = ts.selfDestruct ++ self_destruct_mark ch block_number frame := by
  unfold process_frame at h
  by_cases hdel : frame.typ = "DELEGATECALL" ∨ frame.typ = "CALLCODE"
      ∨ frame.typ = "STATICCALL"
  · rw [if_pos hdel] at h
    cases h
    have hmark : self_destruct_mark ch block_number frame = [] := by
      unfold self_destruct_mark
      have : ¬ (frame.typ = "SELFDESTRUCT"
          ∧ ch.codeLen frame.frm block_number = some 0) := by
        rintro ⟨hsd, -⟩
        rcases hdel with h1 | h1 | h1 <;> rw [hsd] at h1 <;> simp at h1
      rw [if_neg this]
    simp [hmark]
  · rw [if_neg hdel] at h
    split at h
    · cases h
    · rename_i tsa hstep
      have h1 := selfdestruct_step_spec ch block_number frame ts tsa hstep
      have h2 := value_step_selfDestruct st ch block_number frame tsa ts1 h
      rw [h2, h1]

theorem dfs_list_selfDestruct (st : Store) (ch : Chain) (block_number : ℕ)
    (l : List CallFrame) (ts : TState) :
    ∀ ts', dfs_list st ch block_number l ts = some ts' →
      ts'.selfDestruct = ts.selfDestruct ++ collect_sd_list ch block_number l := by
  induction l, ts using dfs_list.induct st ch block_number with
  | case1 ts =>
    intro ts' h
    rw [dfs_list] at h
    cases h
    simp [collect_sd_list]
  | case2 t f toA v g e cs rest ts herr ih =>
    intro ts' h
    rw [dfs_list, if_pos herr] at h
    rw [ih ts' h, collect_sd_list, herr]
    simp
  | case3 t f toA v g e cs rest ts herr hproc =>
    intro ts' h
    rw [dfs_list, if_neg herr] at h
    simp only [hproc] at h
    cases h
  | case4 t f toA v g e cs rest ts herr ts1 hproc hdfs =>
    intro ts' h
    rw [dfs_list, if_neg herr] at h
    simp only [hproc, hdfs] at h
    cases h
  | case5 t f toA v g e cs rest ts herr ts1 hproc ts2 hdfs ih1 ih2 =>
    intro ts' h
    rw [dfs_list, if_neg herr] at h
    simp only [hproc, hdfs] at h
    have hmk := process_frame_selfDestruct st ch block_number
      (CallFrame.mk t f toA v g e cs) ts ts1 hproc
    rw [ih2 ts' h, ih1 ts2 hdfs, hmk, collect_sd_list, if_neg herr]
    simp

/-! ### Helper lemmas: the transfer recorder -/

theorem get_score_ok (st : Store) (cache : CacheData) (a : ℕ) (σ : Score)
    (hc : CacheOk cache) (hs : StoreOk st)
    (h : get_score st cache a = some σ) : ScoreOk σ := by
  unfold get_score at h
  cases hg : get_data cache a with
  | some s =>
    simp only [hg] at h
    cases h
    exact hc a _ hg
  | none =>
    simp only [hg] at h
    exact hs a _ h

theorem with_same_balance (v : ℕ) (ref ts : Score)
    (h : Score.with_same_uncleanliness_ceil v ref = some ts) : ts.balance = v := by
  unfold Score.with_same_uncleanliness_ceil Score.new at h
  split at h
  · cases h
  · dsimp only at h
    split at h
    · split at h
      · cases h
        rfl
      · cases h
    · cases h

theorem update_sender_state_balance (st : Store) (cache : CacheData) (ch : Chain)
    (block_number a v : ℕ) (cache' : CacheData) (ts : Score)
    (h : update_sender_state st cache ch block_number a v = some (cache', ts)) :
    ts.balance = v := by
  unfold update_sender_state at h
  cases hg : get_score st cache a with
  | some σ =>
    simp only [hg] at h
    cases hw : Score.with_same_uncleanliness_ceil v σ with
    | none =>
      simp only [hw] at h
      cases h
    | some ts0 =>
      simp only [hw] at h
      split at h
      · cases h
        exact with_same_balance v σ ts hw
      · cases h
  | none =>
    simp only [hg] at h
    cases hb : ch.balance a (block_number - 1) with
    | none =>
      simp only [hb] at h
      cases h
    | some b =>
      simp only [hb] at h
      split at h
      · cases h
        rfl
      · cases h

theorem update_sender_state_spec (st : Store) (cache : CacheData) (ch : Chain)
    (block_number a v : ℕ) (cache' : CacheData) (ts : Score)
    (hc : CacheOk cache) (hs : StoreOk st) (hch : ChainOk ch) (hv : v < U256_SIZE)
    (h : update_sender_state st cache ch block_number a v = some (cache', ts)) :
    ScoreOk ts ∧ ts.balance = v
    ∧ (∀ σ, get_score st cache a = some σ →
        ts.balance ≤ σ.balance ∧ ts.dirty_amount ≤ σ.dirty_amount
        ∧ get_data cache' a
            = some ⟨σ.balance - ts.balance, σ.dirty_amount - ts.dirty_amount⟩)
    ∧ CacheOk cache' := by
  unfold update_sender_state at h
  cases hg : get_score st cache a with
  | some σ =>
    obtain ⟨hσd, hσb⟩ := get_score_ok st cache a σ hc hs hg
    simp only [hg] at h
    have hbpos : 0 < σ.balance := by
      by_contra hz
      have hz0 : σ.balance = 0 := by omega
      rw [Score.with_same_uncleanliness_ceil, if_pos hz0] at h
      simp at h
    obtain ⟨hweq, hwle⟩ := with_same_uncleanliness_ceil_eq v σ hv hbpos hσd
    simp only [hweq] at h
    split at h
    · rename_i hsolv
      cases h
      have hd := div_ceil_u_le (v * σ.dirty_amount) σ.balance σ.dirty_amount hbpos
        (by calc v * σ.dirty_amount ≤ σ.balance * σ.dirty_amount :=
              Nat.mul_le_mul_right _ hsolv
          _ = σ.balance * σ.dirty_amount := rfl)
      have hsub := split_sub_keeps_bound σ.balance σ.dirty_amount v hbpos hσd hsolv
      refine ⟨⟨hwle, hv⟩, rfl, ?_, ?_⟩
      · intro σ2 hσ2
        have hσeq : σ = σ2 := by
          cases hσ2
          rfl
        subst hσeq
        refine ⟨hsolv, hd, ?_⟩
        rw [get_insert_data, if_pos rfl]
        have hbal : sub_wrap σ.balance v = σ.balance - v :=
          sub_wrap_eq _ _ hsolv hσb
        have hdirty : sub_wrap σ.dirty_amount (div_ceil_u (v * σ.dirty_amount) σ.balance)
            = σ.dirty_amount - div_ceil_u (v * σ.dirty_amount) σ.balance :=
          sub_wrap_eq _ _ hd (lt_of_le_of_lt hσd hσb)
        simp [Score.sub, hbal, hdirty]
      · intro x s hx
        rw [get_insert_data] at hx
        by_cases hxa : x = a
        · rw [if_pos hxa] at hx
          cases hx
          constructor
          · simp only [Score.sub]
            rw [sub_wrap_eq _ _ hsolv hσb,
              sub_wrap_eq _ _ hd (lt_of_le_of_lt hσd hσb)]
            omega
          · simp only [Score.sub]
            rw [sub_wrap_eq _ _ hsolv hσb]
            omega
        · rw [if_neg hxa] at hx
          exact hc x s hx
    · cases h
  | none =>
    simp only [hg] at h
    cases hb : ch.balance a (block_number - 1) with
    | none =>
      simp only [hb] at h
      cases h
    | some b =>
      have hbU : b < U256_SIZE := hch a (block_number - 1) b hb
      simp only [hb] at h
      split at h
      · rename_i hsolv
        cases h
        simp only [Score.new_clean] at hsolv
        refine ⟨⟨Nat.zero_le v, hv⟩, rfl, ?_, ?_⟩
        · intro σ2 hσ2
          simp [hg] at hσ2
        · intro x s hx
          rw [get_insert_data] at hx
          by_cases hxa : x = a
          · rw [if_pos hxa] at hx
            cases hx
            have h00 : sub_wrap 0 0 = 0 := by
              have := sub_wrap_eq 0 0 (Nat.le_refl 0) (by norm_num [U256_SIZE])
              simpa using this
            constructor
            · simp only [Score.sub, Score.new_clean]
              rw [sub_wrap_eq _ _ hsolv hbU, h00]
              omega
            · simp only [Score.sub, Score.new_clean]
              rw [sub_wrap_eq _ _ hsolv hbU]
              omega
          · rw [if_neg hxa] at hx
            exact hc x s hx
      · cases h

theorem as_dirty_ok (s : Score) (h : ScoreOk s) : ScoreOk s.as_dirty :=
  ⟨le_refl _, h.2⟩

theorem update_recipient_state_spec (st : Store) (cache : CacheData) (ch : Chain)
    (block_number a : ℕ) (ts : Score) (cache' : CacheData)
    (hc : CacheOk cache) (hs : StoreOk st) (hch : ChainOk ch)
    (hts : ScoreOk ts)
    (hbound : ∀ σ, get_score st cache a = some σ →
        σ.balance + ts.balance < U256_SIZE)
    (hbound2 : ∀ n, get_score st cache a = none →
        ch.balance a (block_number - 1) = some n → n + ts.balance < U256_SIZE)
    (h : update_recipient_state st cache ch block_number a ts = some cache') :
    CacheOk cache' ∧ ∃ s, get_data cache' a = some s ∧ ScoreOk s := by
  unfold update_recipient_state at h
  set ts' := if TC_ETH_ADDRESS.contains a then ts.as_dirty else ts with hts'
  have htsok : ScoreOk ts' := by
    rw [hts']
    split
    · exact as_dirty_ok ts hts
    · exact hts
  have htsbal : ts'.balance = ts.balance := by
    rw [hts']
    split
    · rfl
    · rfl
  cases hg : get_score st cache a with
  | some σ =>
    obtain ⟨hσd, hσb⟩ := get_score_ok st cache a σ hc hs hg
    have hbd : σ.balance + ts.balance < U256_SIZE := hbound σ hg
    simp only [hg] at h
    cases h
    have h1 : ts'.dirty_amount ≤ ts.balance := by
      rw [← htsbal]
      exact htsok.1
    have hsum : ScoreOk (σ.add ts') := by
      constructor
      · simp only [Score.add]
        rw [add_wrap_eq _ _ (by omega), add_wrap_eq _ _ (by omega)]
        omega
      · simp only [Score.add]
        rw [add_wrap_eq _ _ (by omega)]
        omega
    refine ⟨?_, σ.add ts', ?_, hsum⟩
    · intro x s hx
      rw [get_insert_data] at hx
      by_cases hxa : x = a
      · rw [if_pos hxa] at hx
        cases hx
        exact hsum
      · rw [if_neg hxa] at hx
        exact hc x s hx
    · rw [get_insert_data, if_pos rfl]
  | none =>
    simp only [hg] at h
    cases hb : ch.balance a (block_number - 1) with
    | none =>
      simp only [hb] at h
      cases h
    | some n =>
      have hnU : n < U256_SIZE := hch a (block_number - 1) n hb
      have hbd : n + ts.balance < U256_SIZE := hbound2 n hg hb
      simp only [hb] at h
      cases h
      have h1 : ts'.dirty_amount ≤ ts.balance := by
        rw [← htsbal]
        exact htsok.1
      have hsum : ScoreOk ((Score.new_clean n).add ts') := by
        constructor
        · simp only [Score.add, Score.new_clean]
          rw [add_wrap_eq _ _ (by omega), add_wrap_eq _ _ (by omega)]
          omega
        · simp only [Score.add, Score.new_clean]
          rw [add_wrap_eq _ _ (by omega)]
          omega
      refine ⟨?_, (Score.new_clean n).add ts', ?_, hsum⟩
      · intro x s hx
        rw [get_insert_data] at hx
        by_cases hxa : x = a
        · rw [if_pos hxa] at hx
          cases hx
          exact hsum
        · rw [if_neg hxa] at hx
          exact hc x s hx
      · rw [get_insert_data, if_pos rfl]

theorem record_transfer_zero_prior (st : Store) (cache : CacheData) (ch : Chain)
    (block_number a r v : ℕ) (rv : Option ℕ) (σ : Score)
    (hg : get_score st cache a = some σ) (hσ : σ.balance = 0) :
    record_transfer st cache ch block_number (some a) r v rv = none := by
  unfold record_transfer update_sender_state
  simp only [hg, Score.with_same_uncleanliness_ceil, hσ]
  simp

theorem record_transfer_zero_value (st : Store) (cache : CacheData) (ch : Chain)
    (block_number r : ℕ) (sender : Option ℕ) :
    record_transfer st cache ch block_number sender r 0 (some 0) = none := by
  unfold record_transfer
  cases sender with
  | none =>
    simp only
    rw [show Score.with_same_uncleanliness_ceil 0 (Score.new_clean 0) = none from rfl]
    simp
  | some a =>
    simp only
    cases hu : update_sender_state st cache ch block_number a 0 with
    | none => simp
    | some p =>
      obtain ⟨cache1, ts0⟩ := p
      have hbal : ts0.balance = 0 :=
        update_sender_state_balance st cache ch block_number a 0 cache1 ts0 hu
      simp only
      rw [if_pos (le_refl 0), Score.with_same_uncleanliness_ceil, if_pos hbal]

theorem record_transfer_insolvent_cached (st : Store) (cache : CacheData) (ch : Chain)
    (block_number a r v : ℕ) (rv : Option ℕ) (σ : Score)
    (hg : get_score st cache a = some σ) (hv : σ.balance < v) :
    record_transfer st cache ch block_number (some a) r v rv = none := by
  unfold record_transfer update_sender_state
  simp only [hg]
  cases hw : Score.with_same_uncleanliness_ceil v σ with
  | none => simp
  | some ts0 =>
    have hbal : ts0.balance = v := with_same_balance v σ ts0 hw
    simp only
    rw [if_neg (by omega)]

theorem record_transfer_insolvent_clean (st : Store) (cache : CacheData) (ch : Chain)
    (block_number a r v b : ℕ) (rv : Option ℕ)
    (hg : get_score st cache a = none)
    (hb : ch.balance a (block_number - 1) = some b) (hv : b < v) :
    record_transfer st cache ch block_number (some a) r v rv = none := by
  unfold record_transfer update_sender_state
  simp only [hg, hb]
  rw [if_neg (show ¬ (Score.new_clean v).balance ≤ (Score.new_clean b).balance by
    simp only [Score.new_clean]
    omega)]

theorem record_transfer_recv_gt (st : Store) (cache : CacheData) (ch : Chain)
    (block_number r v rv : ℕ) (sender : Option ℕ) (hrv : v < rv) :
    record_transfer st cache ch block_number sender r v (some rv) = none := by
  unfold record_transfer
  cases sender with
  | none =>
    simp only
    rw [if_neg (by omega)]
  | some a =>
    simp only
    cases hu : update_sender_state st cache ch block_number a v with
    | none => simp
    | some p =>
      obtain ⟨cache1, ts0⟩ := p
      simp only
      rw [if_neg (by omega)]

theorem record_transfer_completes (st : Store) (cache : CacheData) (ch : Chain)
    (block_number a r v : ℕ) (rv : Option ℕ) (σ : Score)
    (hc : CacheOk cache) (hs : StoreOk st) (hch : ChainOk ch)
    (hg : get_score st cache a = some σ) (hpos : 0 < σ.balance)
    (hv : v ≤ σ.balance)
    (hrv : ∀ x, rv = some x → x ≤ v) (hvpos : rv ≠ none → 0 < v)
    (hbal : ∀ x, (ch.balance x (block_number - 1)).isSome) :
    (record_transfer st cache ch block_number (some a) r v rv).isSome := by
  obtain ⟨hσd, hσb⟩ := get_score_ok st cache a σ hc hs hg
  have hvU : v < U256_SIZE := by omega
  obtain ⟨hweq, hwle⟩ := with_same_uncleanliness_ceil_eq v σ hvU hpos hσd
  unfold record_transfer update_sender_state
  simp only [hg, hweq]
  rw [if_pos (show (⟨v, div_ceil_u (v * σ.dirty_amount) σ.balance⟩ : Score).balance
      ≤ σ.balance from hv)]
  simp only
  set d := div_ceil_u (v * σ.dirty_amount) σ.balance with hd
  set cache1 := insert_data cache a
    (σ.sub { balance := v, dirty_amount := d }) with hcache1
  have hrec : ∀ (ts2 : Score),
      (update_recipient_state st cache1 ch block_number r ts2).isSome := by
    intro ts2
    unfold update_recipient_state
    cases hg2 : get_score st cache1 r with
    | some σ2 => simp
    | none =>
      cases hb2 : ch.balance r (block_number - 1) with
      | none =>
        have := hbal r
        rw [hb2] at this
        cases this
      | some n => simp
  cases rv with
  | none =>
    simp only
    exact hrec _
  | some x =>
    have hxv : x ≤ v := hrv x rfl
    have hv0 : 0 < v := hvpos (by simp)
    simp only
    rw [if_pos hxv]
    obtain ⟨hweq2, hwle2⟩ := with_same_uncleanliness_ceil_eq x
      ⟨v, d⟩ (by omega) (by simpa using hv0) (by simpa using hwle)
    rw [hweq2]
    exact hrec _

theorem depth_first_traversal_selfDestruct (st : Store) (ch : Chain)
    (block_number : ℕ) (root : CallFrame) (ts ts' : TState)
    (h : depth_first_traversal st ch block_number root ts = some ts') :
    ts'.selfDestruct = ts.selfDestruct ++ collect_sd_root ch block_number root := by
  unfold depth_first_traversal at h
  unfold collect_sd_root
  by_cases herr : root.error.isSome
  · rw [if_pos herr] at h
    cases h
    rw [if_pos herr]
    simp
  · rw [if_neg herr] at h
    split at h
    · cases h
    · rename_i ts1 hproc
      have h1 := process_frame_selfDestruct st ch block_number root ts ts1 hproc
      have h2 := dfs_list_selfDestruct st ch block_number root.calls ts1 ts' h
      rw [if_neg herr, h2, h1]
      simp

theorem drain_self_destruct_spec (ts : TState) :
    (drain_self_destruct ts).selfDestruct = []
    ∧ ∀ a, get_data (drain_self_destruct ts).cacheData a
        = if a ∈ ts.selfDestruct then some ⟨0, 0⟩ else get_data ts.cacheData a := by
  refine ⟨rfl, ?_⟩
  intro a
  exact get_foldl_insert_const _ _ _ _

theorem record_transaction_selfDestruct_empty (st : Store) (ch : Chain)
    (block_number block_miner : ℕ) (base_fee : Option ℕ) (tx : Transaction)
    (trace : TraceResult) (ts ts' : TState)
    (h : record_transaction st ch block_number block_miner base_fee tx trace ts
        = some ts') :
    ts'.selfDestruct = [] := by
  unfold record_transaction at h
  rcases Option.map_eq_some'.mp h with ⟨ts0, -, hts⟩
  rw [← hts]
  rfl

/-! ### Helper lemmas: the concrete test instances -/

theorem store_ok_empty : StoreOk empty_store := by
  intro a s h
  simp [empty_store] at h

theorem chain_ok_test : ChainOk test_chain := by
  intro a b n h
  simp [test_chain] at h
  subst h
  norm_num [U256_SIZE]

theorem cache_ok_single : CacheOk [(1, ⟨10, 4⟩)] := by
  intro a s h
  rw [get_data] at h
  by_cases ha : a = 1
  · rw [if_pos ha] at h
    cases h
    exact ⟨by norm_num, by norm_num [U256_SIZE]⟩
  · rw [if_neg ha] at h
    rw [get_data] at h
    cases h

/-! ### The claims -/

/-- C1: for every `(address, score)` pair drained from the block cache when
flushing block `B`: when the address is present in `current_dirty`, the flush
overwrites `current_dirty[address]` with the score when it is dirty and
deletes the entry when it is clean, and in both cases appends `(address, B)`
to `address_history` and writes `snapshots[B][address] = score`; when the
address is absent, the flush writes all three tables exactly when the score is
dirty and does nothing otherwise, so an address clean before block `B` that
stays clean is never recorded. -/
theorem flush_cache_entry_spec (st : Store) (block_number address : ℕ) (score : Score) :
    ((st.current_dirty address).isSome →
      (flush_cache_entry block_number st address score).current_dirty address
          = (if score.is_dirty then some score else none)
      ∧ (flush_cache_entry block_number st address score).address_history address
          = st.address_history address ++ [block_number]
      ∧ (flush_cache_entry block_number st address score).snapshots block_number address
          = some score)
    ∧ (st.current_dirty address = none →
      (score.is_dirty = true →
        (flush_cache_entry block_number st address score).current_dirty address
            = some score
        ∧ (flush_cache_entry block_number st address score).address_history address
            = st.address_history address ++ [block_number]
        ∧ (flush_cache_entry block_number st address score).snapshots block_number address
            = some score)
      ∧ (score.is_dirty = false →
        flush_cache_entry block_number st address score = st)) := by
  constructor
  · intro hsome
    cases hcd : st.current_dirty address with
    | none => rw [hcd] at hsome; cases hsome
    | some s0 =>
      unfold flush_cache_entry
      rw [hcd]
      refine ⟨by simp, by simp, by simp⟩
  · intro hnone
    constructor
    · intro hdirty
      unfold flush_cache_entry
      rw [hnone]
      refine ⟨by simp [hdirty], by simp [hdirty], by simp [hdirty]⟩
    · intro hclean
      unfold flush_cache_entry
      rw [hnone]
      simp [hclean]

/-- Witness for C1: flushing the dirty score `(2, 1)` for address 1 (present
in `current_dirty`) at block 7 overwrites the entry, appends block 7 to the
history and writes the snapshot. -/
theorem flush_cache_entry_spec_witness :
    (flush_cache_entry 7 dirty_store 1 ⟨2, 1⟩).current_dirty 1 = some ⟨2, 1⟩
    ∧ (flush_cache_entry 7 dirty_store 1 ⟨2, 1⟩).address_history 1 = [7]
    ∧ (flush_cache_entry 7 dirty_store 1 ⟨2, 1⟩).snapshots 7 1 = some ⟨2, 1⟩ := by
  obtain ⟨h1, h2, h3⟩ := (flush_cache_entry_spec dirty_store 7 1 ⟨2, 1⟩).1 (by rfl)
  refine ⟨?_, ?_, h3⟩
  · rw [h1]
    rfl
  · rw [h2]
    rfl

/-- C2: for a transfer value below `2^256` and a reference score with positive
balance and `dirty_amount ≤ balance`, `with_same_uncleanliness_ceil` succeeds
and returns balance `v` with dirty amount the exact ceiling of
`v * ref.dirty / ref.balance` (the `ℕ` computation coincides with the 512-bit
one because the product is below `2^512`); this dirty amount lies between the
floor and the ceiling of the exact ratio and is at most `v`, hence below
`2^256`, so narrowing back to `U256` cannot overflow. -/
theorem with_same_uncleanliness_ceil_spec (v : ℕ) (ref : Score)
    (hv : v < U256_SIZE) (hb : 0 < ref.balance)
    (hd : ref.dirty_amount ≤ ref.balance) :
    Score.with_same_uncleanliness_ceil v ref
      = some ⟨v, div_ceil_u (v * ref.dirty_amount) ref.balance⟩
    ∧ v * ref.dirty_amount / ref.balance
        ≤ div_ceil_u (v * ref.dirty_amount) ref.balance
    ∧ div_ceil_u (v * ref.dirty_amount) ref.balance ≤ v
    ∧ div_ceil_u (v * ref.dirty_amount) ref.balance < U256_SIZE := by
  obtain ⟨heq, hle⟩ := with_same_uncleanliness_ceil_eq v ref hv hb hd
  exact ⟨heq, div_le_div_ceil_u _ _, hle, lt_of_le_of_lt hle hv⟩

/-- Witness for C2: splitting 7 against the reference `(100, 30)` gives
`(7, ceil(7 * 30 / 100)) = (7, 3)`. -/
theorem with_same_uncleanliness_ceil_spec_witness :
    Score.with_same_uncleanliness_ceil 7 ⟨100, 30⟩ = some ⟨7, 3⟩
    ∧ div_ceil_u (7 * 30) 100 ≤ 7 := by
  have h := with_same_uncleanliness_ceil_spec 7 ⟨100, 30⟩
    (by norm_num [U256_SIZE]) (by norm_num) (by norm_num)
  refine ⟨?_, h.2.2.1⟩
  rw [h.1]
  rfl

/-- C3: every score the engine constructs or stores satisfies
`dirty_amount ≤ balance`: `Score::new` rejects any pair with
`dirty_amount > balance`; `update_sender_state` (the sender half of
`record_transfer`) yields a transfer score below the prior score in both
components — so `prior - transfer` never underflows once the solvency
assertion has passed — and leaves every cached score within the bound;
`update_recipient_state` (the recipient half) adds the transfer score onto
the prior score and again leaves every cached score within the bound. -/
theorem score_taint_bound_preserved :
    (∀ b d : ℕ, b < d → Score.new b d = none)
    ∧ (∀ st cache ch block_number a v cache' ts,
        CacheOk cache → StoreOk st → ChainOk ch → v < U256_SIZE →
        update_sender_state st cache ch block_number a v = some (cache', ts) →
        ScoreOk ts
        ∧ (∀ σ, get_score st cache a = some σ →
            ts.balance ≤ σ.balance ∧ ts.dirty_amount ≤ σ.dirty_amount
            ∧ get_data cache' a = some ⟨σ.balance - ts.balance,
                σ.dirty_amount - ts.dirty_amount⟩)
        ∧ CacheOk cache')
    ∧ (∀ st cache ch block_number a ts cache',
        CacheOk cache → StoreOk st → ChainOk ch → ScoreOk ts →
        (∀ σ, get_score st cache a = some σ →
            σ.balance + ts.balance < U256_SIZE) →
        (∀ n, get_score st cache a = none →
            ch.balance a (block_number - 1) = some n →
            n + ts.balance < U256_SIZE) →
        update_recipient_state st cache ch block_number a ts = some cache' →
        CacheOk cache' ∧ ∃ s, get_data cache' a = some s ∧ ScoreOk s) := by
  refine ⟨?_, ?_, ?_⟩
  · intro b d h
    rw [Score.new, if_neg (by omega)]
  · intro st cache ch block_number a v cache' ts hc hs hch hv h
    obtain ⟨h1, h2, h3, h4⟩ :=
      update_sender_state_spec st cache ch block_number a v cache' ts hc hs hch hv h
    exact ⟨h1, h3, h4⟩
  · intro st cache ch block_number a ts cache' hc hs hch hts hb1 hb2 h
    exact update_recipient_state_spec st cache ch block_number a ts cache'
      hc hs hch hts hb1 hb2 h

/-- Witness for C3: `Score::new 1 2` is rejected, and spending 5 from the
cached prior `(10, 4)` leaves the cache at `(5, 2)`, which still satisfies
the bound. -/
theorem score_taint_bound_preserved_witness :
    Score.new 1 2 = none
    ∧ ScoreOk (⟨5, 2⟩ : Score)
    ∧ CacheOk [(1, (⟨5, 2⟩ : Score))] := by
  have h0 := score_taint_bound_preserved.1 1 2 (by norm_num)
  have h := score_taint_bound_preserved.2.1 empty_store [(1, ⟨10, 4⟩)] test_chain
    5 1 5 [(1, ⟨5, 2⟩)] ⟨5, 2⟩ cache_ok_single store_ok_empty chain_ok_test
    (by norm_num [U256_SIZE]) (by rfl)
  exact ⟨h0, h.1, h.2.2⟩

/-- Counterexample to C4: with a prior sender score `(0, 0)` in the cache and
`sender_value = 0` both claimed requirements hold — the transfer balance 0
does not exceed the prior balance 0 and no recipient value is supplied — yet
the call does not complete: `with_same_uncleanliness_ceil` divides by the zero
prior balance and panics before the solvency assertion is even reached. -/
theorem record_transfer_requirements_insufficient :
    get_score empty_store [(1, (⟨0, 0⟩ : Score))] 1 = some ⟨0, 0⟩
    ∧ (⟨0, 0⟩ : Score).balance ≤ (⟨0, 0⟩ : Score).balance
    ∧ record_transfer empty_store [(1, ⟨0, 0⟩)] test_chain 5 (some 1) 2 0 none
        = none := by
  exact ⟨rfl, le_refl _, rfl⟩

/-- C4 (amended): `record_transfer` fails when a sender is given and the
transfer balance (equal to `sender_value`) exceeds the sender's prior balance
— whether that prior comes from the cache/store or from the clean chain
fallback — and fails whenever `recipient_value > sender_value`; and when both
requirements hold, the call completes **provided additionally** that every
reference handed to `with_same_uncleanliness_ceil` has positive balance (the
sender's prior balance is positive, and `sender_value` is positive whenever a
recipient value is supplied) and the chain source answers the balance
queries. -/
theorem record_transfer_assertion_spec :
    (∀ st cache ch block_number a r v rv σ,
        get_score st cache a = some σ → σ.balance < v →
        record_transfer st cache ch block_number (some a) r v rv = none)
    ∧ (∀ st cache ch block_number a r v b rv,
        get_score st cache a = none →
        ch.balance a (block_number - 1) = some b → b < v →
        record_transfer st cache ch block_number (some a) r v rv = none)
    ∧ (∀ st cache ch block_number r v rv sender, v < rv →
        record_transfer st cache ch block_number sender r v (some rv) = none)
    ∧ (∀ st cache ch block_number a r v rv σ,
        CacheOk cache → StoreOk st → ChainOk ch →
        get_score st cache a = some σ → 0 < σ.balance → v ≤ σ.balance →
        (∀ x, rv = some x → x ≤ v) → (rv ≠ none → 0 < v) →
        (∀ x, (ch.balance x (block_number - 1)).isSome) →
        (record_transfer st cache ch block_number (some a) r v rv).isSome) := by
  refine ⟨?_, ?_, ?_, ?_⟩
  · intro st cache ch block_number a r v rv σ hg hv
    exact record_transfer_insolvent_cached st cache ch block_number a r v rv σ hg hv
  · intro st cache ch block_number a r v b rv hg hb hv
    exact record_transfer_insolvent_clean st cache ch block_number a r v b rv hg hb hv
  · intro st cache ch block_number r v rv sender hrv
    exact record_transfer_recv_gt st cache ch block_number r v rv sender hrv
  · intro st cache ch block_number a r v rv σ hc hs hch hg hpos hv hrv hvpos hbal
    exact record_transfer_completes st cache ch block_number a r v rv σ
      hc hs hch hg hpos hv hrv hvpos hbal

/-- Witness for C4 (amended): a solvent transfer of 5 out of prior `(10, 4)`
rebased to recipient value 3 completes, while an insolvent transfer of 11 and
an inverted `recipient_value > sender_value` both fail. -/
theorem record_transfer_assertion_spec_witness :
    (record_transfer empty_store [(1, ⟨10, 4⟩)] test_chain 5 (some 1) 2 5
        (some 3)).isSome
    ∧ record_transfer empty_store [(1, ⟨10, 4⟩)] test_chain 5 (some 1) 2 11 none
        = none
    ∧ record_transfer empty_store [(1, ⟨10, 4⟩)] test_chain 5 (some 1) 2 5
        (some 6) = none := by
  refine ⟨?_, ?_, ?_⟩
  · exact record_transfer_assertion_spec.2.2.2 empty_store [(1, ⟨10, 4⟩)]
      test_chain 5 1 2 5 (some 3) ⟨10, 4⟩ cache_ok_single store_ok_empty
      chain_ok_test rfl (by norm_num) (by norm_num)
      (by intro x hx; cases hx; norm_num) (fun _ => by norm_num)
      (fun x => by simp [test_chain])
  · exact record_transfer_assertion_spec.1 empty_store [(1, ⟨10, 4⟩)]
      test_chain 5 1 2 11 none ⟨10, 4⟩ rfl (by norm_num)
  · exact record_transfer_assertion_spec.2.2.1 empty_store [(1, ⟨10, 4⟩)]
      test_chain 5 2 5 6 (some 1) (by norm_num)

/-- C10: `with_same_uncleanliness_ceil` is not total — a zero reference
balance makes the ceiling division panic — and `record_transfer` does not
guard against it: it reaches such a call whenever a named sender's prior
score has balance 0, and whenever a recipient value is supplied while the
intermediate transfer score has balance 0 (for instance a transaction whose
total fee `sender_value` is 0), so a positive reference balance is a genuine
unchecked precondition of the public interface. -/
theorem with_same_uncleanliness_zero_balance_unguarded :
    (∀ v (ref : Score), ref.balance = 0 →
        Score.with_same_uncleanliness_ceil v ref = none)
    ∧ (∀ st cache ch block_number a r v rv σ,
        get_score st cache a = some σ → σ.balance = 0 →
        record_transfer st cache ch block_number (some a) r v rv = none)
    ∧ (∀ st cache ch block_number r sender,
        record_transfer st cache ch block_number sender r 0 (some 0) = none) := by
  refine ⟨?_, ?_, ?_⟩
  · intro v ref h
    rw [Score.with_same_uncleanliness_ceil, if_pos h]
  · intro st cache ch block_number a r v rv σ hg hσ
    exact record_transfer_zero_prior st cache ch block_number a r v rv σ hg hσ
  · intro st cache ch block_number r sender
    exact record_transfer_zero_value st cache ch block_number r sender

/-- Witness for C10: the zero-balance reference panics; a sender with prior
score `(0, 0)` makes `record_transfer` fail on a transfer of 3; and a
coinbase transfer of 0 with recipient value 0 fails on the rebase split. -/
theorem with_same_uncleanliness_zero_balance_unguarded_witness :
    Score.with_same_uncleanliness_ceil 5 ⟨0, 0⟩ = none
    ∧ record_transfer empty_store [(1, ⟨0, 0⟩)] test_chain 5 (some 1) 2 3 none
        = none
    ∧ record_transfer empty_store [] test_chain 5 none 2 0 (some 0) = none := by
  refine ⟨?_, ?_, ?_⟩
  · exact with_same_uncleanliness_zero_balance_unguarded.1 5 ⟨0, 0⟩ rfl
  · exact with_same_uncleanliness_zero_balance_unguarded.2.1 empty_store
      [(1, ⟨0, 0⟩)] test_chain 5 1 2 3 none ⟨0, 0⟩ rfl rfl
  · exact with_same_uncleanliness_zero_balance_unguarded.2.2 empty_store []
      test_chain 5 2 none

/-- C5: the effective priority fee per gas equals: for an EIP-1559
transaction (present `max_priority_fee_per_gas`), `min(max_priority_fee,
max_fee - base_fee)` when `max_fee > max_priority_fee + base_fee` and
`gas_price - base_fee` otherwise; for a legacy transaction,
`gas_price - base_fee`; with `gas_price`, `max_fee` and `base_fee` each
defaulting to 0 when absent. (Stated for `base_fee ≤ gas_price` and `U256`
inputs, where the machine subtraction equals the exact one.) -/
theorem effective_priority_fee_spec
    (base_fee gas_price max_fee max_prio : Option ℕ)
    (hgp : gas_price.getD 0 < U256_SIZE)
    (hbf : base_fee.getD 0 ≤ gas_price.getD 0)
    (htip : ∀ t, max_prio = some t → t + base_fee.getD 0 < U256_SIZE) :
    effective_priority_fee base_fee gas_price max_fee max_prio
      = match max_prio with
        | some tips =>
          if tips + base_fee.getD 0 < max_fee.getD 0
          then min tips (max_fee.getD 0 - base_fee.getD 0)
          else gas_price.getD 0 - base_fee.getD 0
        | none => gas_price.getD 0 - base_fee.getD 0 := by
  unfold effective_priority_fee
  cases max_prio with
  | none => exact sub_wrap_eq _ _ hbf hgp
  | some tips =>
    have ht := htip tips rfl
    simp only
    rw [add_wrap_eq _ _ ht]
    by_cases hcond : tips + base_fee.getD 0 < max_fee.getD 0
    · rw [if_pos hcond, if_pos hcond]
      omega
    · rw [if_neg hcond, if_neg hcond]
      exact sub_wrap_eq _ _ hbf hgp

/-- Witness for C5: base fee 5, gas price 20, max fee 30, priority fee 10:
the EIP-1559 requirement `30 > 10 + 5` holds, so the tip is
`min(10, 30 - 5) = 10`. -/
theorem effective_priority_fee_spec_witness :
    effective_priority_fee (some 5) (some 20) (some 30) (some 10) = 10 := by
  have h := effective_priority_fee_spec (some 5) (some 20) (some 30) (some 10)
    (by norm_num [U256_SIZE]) (by norm_num)
    (by intro t ht; cases ht; norm_num [U256_SIZE])
  rw [h]
  norm_num

/-- Counterexample to C7: on a snapshot table holding the single clean entry
`snapshots[1][7] = (5, 0)`, the Rust return value of
`export_tainted_addresses_until_block_number(1)` contains address 7 even
though its retained score is clean, so the function does **not** return
exactly the dirty subset — only its CSV rows are that subset (here empty). -/
theorem export_tainted_returns_clean_entry :
    (export_tainted_addresses_until_block_number [(1, 7, ⟨5, 0⟩)] 1).1
      = [(7, (⟨5, 0⟩ : Score))]
    ∧ (export_tainted_addresses_until_block_number [(1, 7, ⟨5, 0⟩)] 1).2 = []
    ∧ (⟨5, 0⟩ : Score).is_dirty = false := by
  exact ⟨rfl, rfl, rfl⟩

/-- C7 (amended): the export iterates the snapshot entries from the first key
while the key is at most `B` (exactly the maximal such prefix), retains for
each address the last score seen, and writes to CSV exactly the dirty subset
of the retained map; the function's Rust return value however is the full
retained map, clean entries included. -/
theorem export_tainted_addresses_spec (entries : List (ℕ × ℕ × Score))
    (block_number : ℕ) :
    (export_tainted_addresses_until_block_number entries block_number).1
      = (entries.takeWhile (fun e => decide (e.1 ≤ block_number))).foldl
          (fun acc e => insert_data acc e.2.1 e.2.2) []
    ∧ (∀ a, get_data
        (export_tainted_addresses_until_block_number entries block_number).1 a
        = match (((entries.takeWhile (fun e => decide (e.1 ≤ block_number))).map
              Prod.snd).filter (fun e => decide (e.1 = a))).getLast? with
          | some e => some e.2
          | none => none)
    ∧ (export_tainted_addresses_until_block_number entries block_number).2
      = (export_tainted_addresses_until_block_number entries block_number).1.filter
          (fun p => p.2.is_dirty)
    ∧ (∀ p, p ∈ (export_tainted_addresses_until_block_number entries block_number).2
        ↔ p ∈ (export_tainted_addresses_until_block_number entries block_number).1
          ∧ p.2.is_dirty = true) := by
  have hfold :
      (export_tainted_addresses_until_block_number entries block_number).1
        = (entries.takeWhile (fun e => decide (e.1 ≤ block_number))).foldl
            (fun acc e => insert_data acc e.2.1 e.2.2) [] :=
    export_tainted_loop_eq_foldl block_number entries []
  refine ⟨hfold, ?_, rfl, ?_⟩
  · intro a
    rw [hfold]
    have h := get_foldl_insert_pairs
      ((entries.takeWhile (fun e => decide (e.1 ≤ block_number))).map Prod.snd)
      [] a
    simp only [List.foldl_map] at h
    rw [h]
    cases ((entries.takeWhile (fun e => decide (e.1 ≤ block_number))).map
        Prod.snd).filter (fun e => decide (e.1 = a)) |>.getLast? with
    | none => rfl
    | some e => rfl
  · intro p
    unfold export_tainted_addresses_until_block_number
    simp [List.mem_filter]

/-- C6: `get_address_score_by_block_number` binary-searches the address's
recorded history for the largest block `B' ≤ B` (the history is strictly
sorted, and snapshots exist exactly at recorded blocks, per the store
invariants): if no such entry exists it returns a clean score at the chain
balance of the address at block `B`; otherwise it reads
`snapshots[B'][address]` and returns that score, except that a snapshot with
zero balance (a wiped address) falls back to the clean chain balance at `B`. -/
theorem get_address_score_by_block_number_spec (st : Store) (ch : Chain)
    (address block_number : ℕ)
    (hsort : (st.address_history address).Pairwise (· < ·))
    (hcov : ∀ b, b ∈ st.address_history address →
        (st.snapshots b address).isSome)
    (hexcl : ∀ b, b ∉ st.address_history address →
        st.snapshots b address = none) :
    ((∀ b ∈ st.address_history address, ¬ b ≤ block_number) →
      get_address_score_by_block_number st ch address block_number
        = (ch.balance address block_number).map Score.new_clean)
    ∧ (∀ B' s, B' ∈ st.address_history address → B' ≤ block_number →
        (∀ b ∈ st.address_history address, b ≤ block_number → b ≤ B') →
        st.snapshots B' address = some s →
        get_address_score_by_block_number st ch address block_number
          = if s.balance ≠ 0 then some s
            else (ch.balance address block_number).map Score.new_clean) := by
  constructor
  · intro hnone
    have hnotmem : block_number ∉ st.address_history address := fun hm =>
      hnone block_number hm (le_refl _)
    have hfil : (st.address_history address).filter
        (fun y => decide (y < block_number)) = [] := by
      apply List.filter_eq_nil_iff.mpr
      intro b hb
      have := hnone b hb
      simp only [decide_eq_true_eq]
      omega
    simp only [get_address_score_by_block_number]
    rw [hfil]
    simp only [List.length_nil, if_neg hnotmem, eq_self_iff_true, if_true]
    rw [hexcl block_number hnotmem]
  · intro B' s hmem hle hmax hsnap
    simp only [get_address_score_by_block_number]
    by_cases hBmem : block_number ∈ st.address_history address
    · have hBB : B' = block_number :=
        le_antisymm hle (hmax block_number hBmem (le_refl _))
      subst hBB
      rw [if_pos hBmem, sorted_getD_of_mem _ hsort _ hBmem, hsnap]
    · have hlt : B' < block_number := by
        rcases lt_or_eq_of_le hle with h | h
        · exact h
        · exact absurd (h ▸ hmem) hBmem
      have hmemfil : B' ∈ (st.address_history address).filter
          (fun y => decide (y < block_number)) := by
        simp only [List.mem_filter, decide_eq_true_eq]
        exact ⟨hmem, hlt⟩
      have hpos : 0 < ((st.address_history address).filter
          (fun y => decide (y < block_number))).length :=
        List.length_pos.mpr (List.ne_nil_of_mem hmemfil)
      obtain ⟨hm1, hm2, hm3⟩ := sorted_getD_pred _ hsort block_number hpos
      have heq : (st.address_history address).getD
          (((st.address_history address).filter
            (fun y => decide (y < block_number))).length - 1) 0 = B' :=
        le_antisymm (hmax _ hm1 (le_of_lt hm2)) (hm3 B' hmem hlt)
      rw [if_neg hBmem, if_neg (by omega), heq, hsnap]

/-- Witness for C6: querying address 3 at block 6 against the history
`[4, 9]` picks the snapshot at block 4 and returns `(7, 2)`. -/
theorem get_address_score_by_block_number_spec_witness :
    get_address_score_by_block_number history_store test_chain 3 6
      = some ⟨7, 2⟩ := by
  have h := (get_address_score_by_block_number_spec history_store test_chain 3 6
    (by simp only [history_store]; decide)
    (by
      intro b hb
      simp [history_store] at hb
      rcases hb with rfl | rfl <;> simp [history_store])
    (by
      intro b hb
      have h4 : b ≠ 4 := by
        intro h
        subst h
        simp [history_store] at hb
      have h9 : b ≠ 9 := by
        intro h
        subst h
        simp [history_store] at hb
      simp [history_store, h4, h9])).2 4 ⟨7, 2⟩
    (by simp [history_store])
    (by norm_num)
    (by
      intro b hb hb6
      simp [history_store] at hb
      rcases hb with rfl | rfl
      · exact le_refl 4
      · omega)
    (by simp [history_store])
  rw [h]
  norm_num

/-- C8: within a successful call-tree traversal an address is appended to the
self-destruct set exactly as collected by `collect_sd_root`: it is the `from`
address of a surviving (error-free, with error-free ancestors,
non-delegate/static) SELFDESTRUCT frame whose code at the block has length
zero; every successful `record_transaction` drains the set, leaving it empty;
and the drain forcibly sets every drained address to the score `(0, 0)` in
the cache, leaving the rest of the cache untouched. -/
theorem self_destruct_set_spec :
    (∀ st ch block_number root ts ts',
        depth_first_traversal st ch block_number root ts = some ts' →
        ts'.selfDestruct = ts.selfDestruct ++ collect_sd_root ch block_number root)
    ∧ (∀ st ch block_number block_miner base_fee tx trace ts ts',
        record_transaction st ch block_number block_miner base_fee tx trace ts
            = some ts' →
        ts'.selfDestruct = [])
    ∧ (∀ ts : TState, (drain_self_destruct ts).selfDestruct = []
        ∧ ∀ a, get_data (drain_self_destruct ts).cacheData a
            = if a ∈ ts.selfDestruct then some ⟨0, 0⟩
              else get_data ts.cacheData a) := by
  refine ⟨?_, ?_, ?_⟩
  · intro st ch block_number root ts ts' h
    exact depth_first_traversal_selfDestruct st ch block_number root ts ts' h
  · intro st ch block_number block_miner base_fee tx trace ts ts' h
    exact record_transaction_selfDestruct_empty st ch block_number block_miner
      base_fee tx trace ts ts' h
  · intro ts
    exact drain_self_destruct_spec ts

/-- Witness for C8: traversing a CALL root with one code-less SELFDESTRUCT
child collects exactly address 9, and draining sets it to `(0, 0)`. -/
theorem self_destruct_set_spec_witness :
    (⟨[], [9]⟩ : TState).selfDestruct
      = ([] : List ℕ) ++ collect_sd_root test_chain 5 root_frame
    ∧ get_data (drain_self_destruct ⟨[], [9]⟩).cacheData 9 = some ⟨0, 0⟩ := by
  constructor
  · exact self_destruct_set_spec.1 empty_store test_chain 5 root_frame
      ⟨[], []⟩ ⟨[], [9]⟩ (by
        simp [depth_first_traversal, dfs_list, process_frame,
          process_frame_selfdestruct_step, process_frame_value_step,
          root_frame, sd_frame, test_chain,
          CallFrame.typ, CallFrame.error, CallFrame.frm, CallFrame.value,
          CallFrame.calls, CallFrame.toAddr])
  · have h := (self_destruct_set_spec.2.2 ⟨[], [9]⟩).2 9
    rw [h]
    rfl

/-- C9: if processing a block fails at any point before the final commit — a
chain-source error or a fatal assertion, each modelled as `none` — the write
transaction is dropped and the store visible afterwards has all three tables
exactly as before the block; and any committed store is the flush of the
final cache, produced only by a run of `record_block` that reaches its end. -/
theorem record_block_atomicity (st : Store) (ch : Chain) (block : Block) :
    (record_block st ch block = none →
      record_block_result st ch block = st
      ∧ (record_block_result st ch block).current_dirty = st.current_dirty
      ∧ (record_block_result st ch block).snapshots = st.snapshots
      ∧ (record_block_result st ch block).address_history = st.address_history)
    ∧ (∀ st', record_block st ch block = some st' →
        ∃ block_number cache2, block.number = some block_number
          ∧ st' = flush_cache st block_number cache2) := by
  constructor
  · intro h
    unfold record_block_result
    rw [h]
    exact ⟨rfl, rfl, rfl, rfl⟩
  · intro st' h
    unfold record_block at h
    cases hn : block.number with
    | none => rw [hn] at h; cases h
    | some block_number =>
      rw [hn] at h
      cases ht : block.transactions with
      | none =>
        simp only [ht] at h
        cases h
      | some txs =>
        simp only [ht] at h
        cases htr : ch.trace block_number with
        | none =>
          simp only [htr] at h
          cases h
        | some traces =>
          simp only [htr] at h
          cases hrt : record_transactions st ch block_number block.miner
              block.base_fee_per_gas (txs.zip traces) ⟨[], []⟩ with
          | none =>
            simp only [hrt] at h
            cases h
          | some ts1 =>
            simp only [hrt] at h
            cases hrr : record_reward st ch block_number block.miner
                block.uncles_len block.withdrawals ts1.cacheData with
            | none =>
              simp only [hrr] at h
              cases h
            | some cache2 =>
              simp only [hrr] at h
              cases h
              exact ⟨block_number, cache2, rfl, rfl⟩

/-- Witness for C9: a block whose header lacks a number fails at the first
`expect`, and the resulting store is the unchanged pre-block store. -/
theorem record_block_atomicity_witness :
    record_block_result empty_store test_chain bad_block = empty_store := by
  exact ((record_block_atomicity empty_store test_chain bad_block).1 rfl).1
